import Mathlib

/-!
Shallow embedding of the asset batch-upload pipeline from
src/canisters/frontend/ic-asset/src/batch_upload/plumbing.rs.

Bytes are lists of naturals.  The async functions of the source are
embedded as explicit state-passing functions returning
Except UploadError (result, state); futures::future::try_join_all is
embedded as order-preserving sequential composition with fail-fast error
propagation, which is the observable behaviour the join provides: results
are collected positionally and the first error aborts the whole join.
The state St records the payloads of all remote chunks created so far
(a chunk identifier is an index into this list) and the log of
file-semaphore permit acquisitions, so that remote calls and permit
acquisitions are observable.

External collaborators that are not part of the embedded file
(Content loading and hashing, the gzip encoder, std::fs::metadata and the
canister_api create_chunk method) are parameters of the model, collected
in Env, and their types are modelled from the spec.
-/

set_option linter.unusedVariables false

abbrev Bytes := List Nat

/-- Media type with the top-level type and subtype exposed, as mime::Mime provides. -/
structure Mime where
  type_ : String
  subtype : String
deriving DecidableEq

/-- String form of a media type, as produced by Display for mime::Mime. -/
def Mime.toString (m : Mime) : String := m.type_ ++ "/" ++ m.subtype

/-- Modelled from the spec: per-asset upload configuration; the pipeline only logs it. -/
structure AssetConfig where
  raw : String
deriving DecidableEq

structure AssetDescriptor where
  source : String
  key : String
  config : AssetConfig
deriving DecidableEq

/-- Modelled from the spec: Content is loaded bytes plus a media type. -/
structure Content where
  data : Bytes
  media_type : Mime
deriving DecidableEq

/-- Modelled from the spec: one encoding listed by a remote snapshot entry
(canister_api::types::asset::AssetEncodingDetails), an encoding label with
an optional digest. -/
structure AssetEncodingDetails where
  content_encoding : String
  sha256 : Option Bytes
deriving DecidableEq

/-- Modelled from the spec: a remote snapshot entry
(canister_api::types::asset::AssetDetails), a content type string plus the
list of published encodings. -/
structure AssetDetails where
  content_type : String
  encodings : List AssetEncodingDetails
deriving DecidableEq

/-- Association-list model of HashMap lookup: value of the first entry with the key. -/
def lookupKV {α : Type} : List (String × α) → String → Option α
  | [], _ => none
  | p :: rest, key => if p.1 = key then some p.2 else lookupKV rest key

/-- Association-list model of HashMap::insert: replaces any existing entry for the key. -/
def insertKV {α : Type} (m : List (String × α)) (k : String) (v : α) : List (String × α) :=
  m.filter (fun p => p.1 != k) ++ [(k, v)]

/-- Modelled from the spec: the one wired-in compressor (ContentEncoder::Gzip). -/
inductive ContentEncoder where
  | gzip
deriving DecidableEq

/-- Display form of a ContentEncoder, as used by the format! call in make_encoding. -/
def ContentEncoder.toString : ContentEncoder → String
  | .gzip => "gzip"

def CONTENT_ENCODING_IDENTITY : String := "identity"

def MAX_COST_SINGLE_FILE_MB : Nat := 45

def MAX_CHUNK_SIZE : Nat := 1900000

/-- Error raised by a pipeline run, tagged with the failing operation stage. -/
inductive UploadError where
  | metadataFailed (path : String) (msg : String)
  | loadFailed (path : String) (msg : String)
  | encoderFailed (encoder : String) (msg : String)
  | createChunkFailed (msg : String)
deriving DecidableEq

/-- Modelled from the spec: the external collaborators of the pipeline.
hash is the content digest (Content::sha256); gzipFn the compressor
(Content::encode for Gzip); chunkErr injects create_chunk transport
failures by payload; metaFs is std::fs::metadata restricted to the file
size; loadFs is Content::load. -/
structure Env where
  hash : Bytes → Bytes
  gzipFn : Bytes → Except String Bytes
  chunkErr : Bytes → Option String
  metaFs : String → Except String Nat
  loadFs : String → Except String Content

/-- Observable effect state of one run: payloads of the remote chunks created
so far (a chunk identifier is an index into this list) and the log of
file-semaphore permit acquisitions. -/
structure St where
  chunks : List Bytes
  permitLog : List Nat
deriving DecidableEq

/-- Modelled from the spec: the create-remote-chunk operation. It appends the
payload to the pending remote batch and returns a fresh opaque identifier;
it may fail with a transport or application error. -/
def create_chunk (env : Env) (batch_id : Nat) (data : Bytes) (s : St) :
    Except UploadError (Nat × St) :=
  match env.chunkErr data with
  | some msg => .error (.createChunkFailed msg)
  | none => .ok (s.chunks.length, St.mk (s.chunks ++ [data]) s.permitLog)

/-- Fuel-based worker for chunksOf; the fuel only has to dominate the list
length, which chunksOf supplies. -/
def chunksOfAux {α : Type} (n : Nat) : Nat → List α → List (List α)
  | _, [] => []
  | 0, _ :: _ => []
  | fuel + 1, x :: xs =>
    (x :: xs).take n :: chunksOfAux n fuel ((x :: xs).drop n)

/-- slice::chunks(n): partition a list into consecutive pieces of length n,
the last piece possibly shorter; an empty input yields no pieces. -/
def chunksOf {α : Type} (n : Nat) (l : List α) : List (List α) :=
  if n = 0 then [] else chunksOfAux n l.length l

theorem chunksOfAux_congr {α : Type} {n : Nat} (hn : 0 < n) :
    ∀ (f1 : Nat) (l : List α) (f2 : Nat), l.length ≤ f1 → l.length ≤ f2 →
    chunksOfAux n f1 l = chunksOfAux n f2 l := by
  intro f1
  induction f1 with
  | zero =>
    intro l f2 h1 h2
    have hl : l = [] := List.eq_nil_of_length_eq_zero (Nat.le_zero.mp h1)
    subst hl
    cases f2 <;> rfl
  | succ f ih =>
    intro l f2 h1 h2
    cases l with
    | nil => cases f2 <;> rfl
    | cons x xs =>
      cases f2 with
      | zero =>
        simp only [List.length_cons] at h2
        omega
      | succ f2' =>
        show (x :: xs).take n :: chunksOfAux n f ((x :: xs).drop n)
          = (x :: xs).take n :: chunksOfAux n f2' ((x :: xs).drop n)
        congr 1
        apply ih
        · simp only [List.length_drop, List.length_cons]
          simp only [List.length_cons] at h1
          omega
        · simp only [List.length_drop, List.length_cons]
          simp only [List.length_cons] at h2
          omega

/-- try_join_all over the per-chunk create_chunk futures of
upload_content_chunks: identifiers are collected positionally (ascending
source byte offset) and the first error aborts the join. -/
def create_chunks_seq (env : Env) (batch_id : Nat) :
    List Bytes → St → Except UploadError (List Nat × St)
  | [], s => .ok ([], s)
  | d :: ds, s =>
    match create_chunk env batch_id d s with
    | .error e => .error e
    | .ok (chunk_id, s1) =>
      match create_chunks_seq env batch_id ds s1 with
      | .error e => .error e
      | .ok (ids, s2) => .ok (chunk_id :: ids, s2)

/-- upload_content_chunks (plumbing.rs lines 263-311): an empty payload
uploads exactly one zero-byte chunk; otherwise the payload is split into
MAX_CHUNK_SIZE pieces, each uploaded by create_chunk, identifiers collected
in source order. -/
def upload_content_chunks (env : Env) (batch_id : Nat)
    (asset_descriptor : AssetDescriptor) (content : Content) (sha256 : Bytes)
    (content_encoding : String) (s : St) : Except UploadError (List Nat × St) :=
  if content.data.isEmpty then
    match create_chunk env batch_id [] s with
    | .error e => .error e
    | .ok (chunk_id, s1) => .ok ([chunk_id], s1)
  else
    create_chunks_seq env batch_id (chunksOf MAX_CHUNK_SIZE content.data) s

/-- The already_in_place computation of make_project_asset_encoding
(plumbing.rs lines 61-77). -/
def asset_already_in_place (canister_assets : List (String × AssetDetails))
    (key : String) (media_type : Mime) (content_encoding : String)
    (sha256 : Bytes) : Bool :=
  match lookupKV canister_assets key with
  | some canister_asset =>
    if canister_asset.content_type ≠ media_type.toString then
      false
    else
      match (canister_asset.encodings.find?
          (fun details => details.content_encoding == content_encoding)).bind
          (fun details => details.sha256) with
      | some canister_asset_encoding_sha256 => canister_asset_encoding_sha256 == sha256
      | none => false
  | none => false

structure ProjectAssetEncoding where
  chunk_ids : List Nat
  sha256 : Bytes
  already_in_place : Bool
deriving DecidableEq

structure ProjectAsset where
  asset_descriptor : AssetDescriptor
  media_type : Mime
  encodings : List (String × ProjectAssetEncoding)
deriving DecidableEq

/-- ChunkUploadTarget: the remote canister and open batch; the model only
needs the batch identifier. -/
structure ChunkUploadTarget where
  batch_id : Nat
deriving DecidableEq

/-- make_project_asset_encoding (plumbing.rs lines 50-110). -/
def make_project_asset_encoding (env : Env)
    (chunk_upload_target : Option ChunkUploadTarget)
    (asset_descriptor : AssetDescriptor)
    (canister_assets : List (String × AssetDetails)) (content : Content)
    (content_encoding : String) (s : St) :
    Except UploadError (ProjectAssetEncoding × St) :=
  let sha256 := env.hash content.data
  let already_in_place :=
    asset_already_in_place canister_assets asset_descriptor.key
      content.media_type content_encoding sha256
  let chunk_ids_step : Except UploadError (List Nat × St) :=
    if already_in_place then
      .ok ([], s)
    else
      match chunk_upload_target with
      | some target =>
        upload_content_chunks env target.batch_id asset_descriptor content
          sha256 content_encoding s
      | none => .ok ([], s)
  match chunk_ids_step with
  | .error e => .error e
  | .ok (chunk_ids, s1) =>
    .ok (ProjectAssetEncoding.mk chunk_ids sha256 already_in_place, s1)

/-- Modelled from the spec: Content::encode applies the named transform to
the bytes, keeping the media type; it fails with a codec error. -/
def Content.encode (env : Env) (c : Content) (encoder : ContentEncoder) :
    Except UploadError Content :=
  match encoder with
  | .gzip =>
    match env.gzipFn c.data with
    | .error msg => .error (.encoderFailed (ContentEncoder.toString encoder) msg)
    | .ok d => .ok (Content.mk d c.media_type)

/-- make_encoding (plumbing.rs lines 113-159): the None encoder materializes
the identity encoding; a Some encoder is applied and kept only if it
strictly shrinks the payload. -/
def make_encoding (env : Env) (chunk_upload_target : Option ChunkUploadTarget)
    (asset_descriptor : AssetDescriptor)
    (canister_assets : List (String × AssetDetails)) (content : Content)
    (encoder : Option ContentEncoder) (s : St) :
    Except UploadError (Option (String × ProjectAssetEncoding) × St) :=
  match encoder with
  | none =>
    match make_project_asset_encoding env chunk_upload_target asset_descriptor
        canister_assets content CONTENT_ENCODING_IDENTITY s with
    | .error e => .error e
    | .ok (identity_asset_encoding, s1) =>
      .ok (some (CONTENT_ENCODING_IDENTITY, identity_asset_encoding), s1)
  | some encoder =>
    match Content.encode env content encoder with
    | .error e => .error e
    | .ok encoded =>
      if encoded.data.length < content.data.length then
        let content_encoding := ContentEncoder.toString encoder
        match make_project_asset_encoding env chunk_upload_target
            asset_descriptor canister_assets encoded content_encoding s with
        | .error e => .error e
        | .ok (project_asset_encoding, s1) =>
          .ok (some (content_encoding, project_asset_encoding), s1)
      else
        .ok (none, s)

/-- applicable_encoders (plumbing.rs lines 322-327). -/
def applicable_encoders (media_type : Mime) : List ContentEncoder :=
  if media_type.type_ = "text" ∨ media_type.subtype = "javascript"
      ∨ media_type.subtype = "html" then
    [ContentEncoder.gzip]
  else
    []

/-- try_join_all over the per-encoder make_encoding futures of
make_encodings: results in encoder order, first error aborts. -/
def make_encoding_list (env : Env) (chunk_upload_target : Option ChunkUploadTarget)
    (asset_descriptor : AssetDescriptor)
    (canister_assets : List (String × AssetDetails)) (content : Content) :
    List (Option ContentEncoder) → St →
    Except UploadError (List (Option (String × ProjectAssetEncoding)) × St)
  | [], s => .ok ([], s)
  | e :: es, s =>
    match make_encoding env chunk_upload_target asset_descriptor canister_assets
        content e s with
    | .error err => .error err
    | .ok (r, s1) =>
      match make_encoding_list env chunk_upload_target asset_descriptor
          canister_assets content es s1 with
      | .error err => .error err
      | .ok (rs, s2) => .ok (r :: rs, s2)

/-- make_encodings (plumbing.rs lines 161-197): the None encoder first, then
every applicable encoder; the Some results are inserted into the map. -/
def make_encodings (env : Env) (chunk_upload_target : Option ChunkUploadTarget)
    (asset_descriptor : AssetDescriptor)
    (canister_assets : List (String × AssetDetails)) (content : Content)
    (s : St) : Except UploadError (List (String × ProjectAssetEncoding) × St) :=
  let encoders : List (Option ContentEncoder) :=
    none :: (applicable_encoders content.media_type).map some
  match make_encoding_list env chunk_upload_target asset_descriptor
      canister_assets content encoders s with
  | .error e => .error e
  | .ok (encodings, s1) =>
    .ok ((encodings.filterMap id).foldl (fun result kv => insertKV result kv.1 kv.2) [], s1)

/-- The file-semaphore cost computed by make_project_asset
(plumbing.rs lines 207-213). -/
def filePermits (file_size : Nat) : Nat :=
  max 1 (min ((file_size + 999999) / 1000000) MAX_COST_SINGLE_FILE_MB)

/-- make_project_asset (plumbing.rs lines 199-232): reads the file size,
acquires the file-semaphore permits (recorded in the permit log), loads the
content and assembles the encodings. -/
def make_project_asset (env : Env) (chunk_upload_target : Option ChunkUploadTarget)
    (asset_descriptor : AssetDescriptor)
    (canister_assets : List (String × AssetDetails)) (s : St) :
    Except UploadError (ProjectAsset × St) :=
  match env.metaFs asset_descriptor.source with
  | .error msg => .error (.metadataFailed asset_descriptor.source msg)
  | .ok file_size =>
    let permits := filePermits file_size
    let s1 := St.mk s.chunks (s.permitLog ++ [permits])
    match env.loadFs asset_descriptor.source with
    | .error msg => .error (.loadFailed asset_descriptor.source msg)
    | .ok content =>
      match make_encodings env chunk_upload_target asset_descriptor
          canister_assets content s1 with
      | .error e => .error e
      | .ok (encodings, s2) =>
        .ok (ProjectAsset.mk asset_descriptor content.media_type encodings, s2)

/-- try_join_all over the per-asset make_project_asset futures of
make_project_assets: results in descriptor order, first error aborts. -/
def make_project_asset_list (env : Env)
    (chunk_upload_target : Option ChunkUploadTarget)
    (canister_assets : List (String × AssetDetails)) :
    List AssetDescriptor → St → Except UploadError (List ProjectAsset × St)
  | [], s => .ok ([], s)
  | d :: ds, s =>
    match make_project_asset env chunk_upload_target d canister_assets s with
    | .error e => .error e
    | .ok (pa, s1) =>
      match make_project_asset_list env chunk_upload_target canister_assets ds s1 with
      | .error e => .error e
      | .ok (pas, s2) => .ok (pa :: pas, s2)

/-- make_project_assets (plumbing.rs lines 234-261): one task per descriptor,
joined, then aggregated into a key-addressed map by insertion in input
order. -/
def make_project_assets (env : Env)
    (chunk_upload_target : Option ChunkUploadTarget)
    (asset_descriptors : List AssetDescriptor)
    (canister_assets : List (String × AssetDetails)) (s : St) :
    Except UploadError (List (String × ProjectAsset) × St) :=
  match make_project_asset_list env chunk_upload_target canister_assets
      asset_descriptors s with
  | .error e => .error e
  | .ok (project_assets, s1) =>
    .ok (project_assets.foldl
      (fun hm project_asset => insertKV hm project_asset.asset_descriptor.key project_asset)
      [], s1)

/-! ## Helper lemmas about chunking -/

theorem chunksOf_nil {α : Type} (n : Nat) : chunksOf n ([] : List α) = [] := by
  by_cases h : n = 0 <;> simp [chunksOf, h, chunksOfAux]

theorem chunksOf_cons {α : Type} {n : Nat} (hn : 0 < n) (x : α) (xs : List α) :
    chunksOf n (x :: xs) = (x :: xs).take n :: chunksOf n ((x :: xs).drop n) := by
  have hne := Nat.pos_iff_ne_zero.mp hn
  simp only [chunksOf, if_neg hne]
  show (x :: xs).take n :: chunksOfAux n xs.length ((x :: xs).drop n)
    = (x :: xs).take n :: chunksOfAux n ((x :: xs).drop n).length ((x :: xs).drop n)
  congr 1
  apply chunksOfAux_congr hn
  · simp only [List.length_drop, List.length_cons]
    omega
  · exact le_rfl

theorem chunksOf_flatten {α : Type} {n : Nat} (hn : 0 < n) (l : List α) :
    (chunksOf n l).flatten = l := by
  have H : ∀ (k : Nat) (l : List α), l.length ≤ k → (chunksOf n l).flatten = l := by
    intro k
    induction k with
    | zero =>
      intro l hl
      have hl0 : l = [] := List.eq_nil_of_length_eq_zero (Nat.le_zero.mp hl)
      subst hl0
      simp [chunksOf_nil]
    | succ k ih =>
      intro l hl
      cases l with
      | nil => simp [chunksOf_nil]
      | cons x xs =>
        rw [chunksOf_cons hn, List.flatten_cons]
        have hlen : ((x :: xs).drop n).length ≤ k := by
          simp only [List.length_drop, List.length_cons]
          simp only [List.length_cons] at hl
          omega
        rw [ih ((x :: xs).drop n) hlen]
        exact List.take_append_drop n (x :: xs)
  exact H l.length l le_rfl

theorem chunksOf_length {α : Type} {n : Nat} (hn : 0 < n) (l : List α) :
    (chunksOf n l).length = (l.length + n - 1) / n := by
  have H : ∀ (k : Nat) (l : List α), l.length ≤ k →
      (chunksOf n l).length = (l.length + n - 1) / n := by
    intro k
    induction k with
    | zero =>
      intro l hl
      have hl0 : l = [] := List.eq_nil_of_length_eq_zero (Nat.le_zero.mp hl)
      subst hl0
      simp only [chunksOf_nil, List.length_nil, Nat.zero_add]
      exact (Nat.div_eq_of_lt (by omega)).symm
    | succ k ih =>
      intro l hl
      cases l with
      | nil =>
        simp only [chunksOf_nil, List.length_nil, Nat.zero_add]
        exact (Nat.div_eq_of_lt (by omega)).symm
      | cons x xs =>
        rw [chunksOf_cons hn]
        simp only [List.length_cons, List.length_drop] at *
        have hlen : ((x :: xs).drop n).length ≤ k := by
          simp only [List.length_drop, List.length_cons]
          omega
        rw [ih ((x :: xs).drop n) hlen]
        simp only [List.length_drop, List.length_cons]
        by_cases hc : xs.length + 1 ≤ n
        · have h1 : xs.length + 1 - n = 0 := by omega
          rw [h1]
          have h2 : (0 + n - 1) / n = 0 := Nat.div_eq_of_lt (by omega)
          rw [h2]
          exact (Nat.div_eq_of_lt_le (by omega) (by omega)).symm
        · have h1 : xs.length + 1 - n + n - 1 = xs.length + 1 - n - 1 + n := by omega
          have h2 : xs.length + 1 + n - 1 = xs.length + 1 - 1 + n := by omega
          rw [h1, h2, Nat.add_div_right _ hn, Nat.add_div_right _ hn]
          have h3 : xs.length + 1 - n - 1 + n = xs.length + 1 - 1 := by omega
          rw [← h3, Nat.add_div_right _ hn]
  exact H l.length l le_rfl

theorem chunksOf_getD {α : Type} {n : Nat} (hn : 0 < n) (l : List α) (i : Nat)
    (hi : i < (chunksOf n l).length) :
    (chunksOf n l).getD i [] = (l.drop (i * n)).take n := by
  have H : ∀ (k : Nat) (l : List α), l.length ≤ k → ∀ i, i < (chunksOf n l).length →
      (chunksOf n l).getD i [] = (l.drop (i * n)).take n := by
    intro k
    induction k with
    | zero =>
      intro l hl i hi
      have hl0 : l = [] := List.eq_nil_of_length_eq_zero (Nat.le_zero.mp hl)
      subst hl0
      simp [chunksOf_nil] at hi
    | succ k ih =>
      intro l hl i hi
      cases l with
      | nil => simp [chunksOf_nil] at hi
      | cons x xs =>
        rw [chunksOf_cons hn] at hi ⊢
        cases i with
        | zero => simp
        | succ j =>
          simp only [List.getD_cons_succ]
          simp only [List.length_cons] at hi ⊢
          have hlen : ((x :: xs).drop n).length ≤ k := by
            simp only [List.length_drop, List.length_cons]
            simp only [List.length_cons] at hl
            omega
          rw [ih ((x :: xs).drop n) hlen j (by simpa using hi)]
          rw [List.drop_drop]
          have harith : n + j * n = (j + 1) * n := by ring
          rw [harith]
  exact H l.length l le_rfl i hi


/-! ## Behaviour of the chunk upload engine -/

theorem create_chunks_seq_ok (env : Env) (batch_id : Nat) :
    ∀ (ds : List Bytes) (s : St) (ids : List Nat) (s' : St),
    create_chunks_seq env batch_id ds s = .ok (ids, s') →
    s'.chunks = s.chunks ++ ds ∧ s'.permitLog = s.permitLog ∧
      ids = (List.range ds.length).map (fun i => s.chunks.length + i) := by
  intro ds
  induction ds with
  | nil =>
    intro s ids s' h
    simp only [create_chunks_seq, Except.ok.injEq, Prod.mk.injEq] at h
    obtain ⟨h1, h2⟩ := h
    subst h1
    subst h2
    simp
  | cons d ds ih =>
    intro s ids s' h
    simp only [create_chunks_seq] at h
    cases herr : env.chunkErr d with
    | some msg =>
      simp only [create_chunk, herr] at h
      exact Except.noConfusion h
    | none =>
      simp only [create_chunk, herr] at h
      cases hrec : create_chunks_seq env batch_id ds (St.mk (s.chunks ++ [d]) s.permitLog) with
      | error e =>
        rw [hrec] at h
        exact Except.noConfusion h
      | ok p =>
        obtain ⟨ids1, s2⟩ := p
        rw [hrec] at h
        simp only [Except.ok.injEq, Prod.mk.injEq] at h
        obtain ⟨hids, hs⟩ := h
        obtain ⟨hc, hp, hi⟩ := ih _ _ _ hrec
        subst hids
        subst hs
        simp only at hc hp hi
        refine ⟨by rw [hc]; simp, by rw [hp], ?_⟩
        rw [hi]
        rw [List.length_cons, List.range_succ_eq_map, List.map_cons, List.map_map]
        simp only [Nat.add_zero]
        congr 1
        apply List.map_congr_left
        intro i hmem
        simp only [Function.comp_apply, List.length_append, List.length_cons,
          List.length_nil]
        omega

theorem MAX_CHUNK_SIZE_pos : 0 < MAX_CHUNK_SIZE := by
  norm_num [MAX_CHUNK_SIZE]

/-- The chunk payloads one upload_content_chunks call sends, in source order:
one empty placeholder chunk for an empty payload, otherwise the
MAX_CHUNK_SIZE-sized pieces of the payload. -/
def uploadPieces (content : Content) : List Bytes :=
  if content.data.isEmpty then [[]] else chunksOf MAX_CHUNK_SIZE content.data

theorem upload_content_chunks_ok (env : Env) (batch_id : Nat)
    (asset_descriptor : AssetDescriptor) (content : Content) (sha256 : Bytes)
    (content_encoding : String) (s : St) (ids : List Nat) (s' : St)
    (h : upload_content_chunks env batch_id asset_descriptor content sha256
      content_encoding s = .ok (ids, s')) :
    s'.chunks = s.chunks ++ uploadPieces content ∧ s'.permitLog = s.permitLog ∧
      ids = (List.range (uploadPieces content).length).map
        (fun i => s.chunks.length + i) := by
  by_cases hd : content.data.isEmpty
  · simp only [upload_content_chunks, hd, if_true] at h
    cases herr : env.chunkErr [] with
    | some msg =>
      simp only [create_chunk, herr] at h
      exact Except.noConfusion h
    | none =>
      simp only [create_chunk, herr, Except.ok.injEq, Prod.mk.injEq] at h
      obtain ⟨hids, hs⟩ := h
      subst hids
      subst hs
      simp [uploadPieces, hd, List.range_succ]
  · simp only [upload_content_chunks, hd, if_false, Bool.false_eq_true] at h
    have hres := create_chunks_seq_ok env batch_id _ _ _ _ h
    simpa [uploadPieces, hd] using hres

theorem uploadPieces_flatten (content : Content) :
    (uploadPieces content).flatten = content.data := by
  by_cases hd : content.data.isEmpty
  · simp only [uploadPieces, hd, if_true]
    simp only [List.isEmpty_iff] at hd
    simp [hd]
  · simp only [uploadPieces, hd, if_false, Bool.false_eq_true]
    exact chunksOf_flatten MAX_CHUNK_SIZE_pos content.data

theorem uploadPieces_length (content : Content) :
    (uploadPieces content).length
      = max 1 ((content.data.length + MAX_CHUNK_SIZE - 1) / MAX_CHUNK_SIZE) := by
  by_cases hd : content.data.isEmpty
  · simp only [uploadPieces, hd, if_true]
    simp only [List.isEmpty_iff] at hd
    rw [hd]
    have hM := MAX_CHUNK_SIZE_pos
    simp only [List.length_cons, List.length_nil, List.length_singleton]
    rw [Nat.zero_add, Nat.div_eq_of_lt (by omega)]
    simp
  · simp only [uploadPieces, hd, if_false, Bool.false_eq_true]
    rw [chunksOf_length MAX_CHUNK_SIZE_pos]
    have hlen : content.data ≠ [] := by
      simpa [List.isEmpty_iff] using hd
    have h1 : 0 < content.data.length := List.length_pos.mpr hlen
    have h2 : 1 ≤ (content.data.length + MAX_CHUNK_SIZE - 1) / MAX_CHUNK_SIZE := by
      rw [Nat.one_le_div_iff MAX_CHUNK_SIZE_pos]
      omega
    omega

theorem uploadPieces_getD (content : Content) (i : Nat)
    (hi : i < (uploadPieces content).length) :
    (uploadPieces content).getD i []
      = (content.data.drop (i * MAX_CHUNK_SIZE)).take MAX_CHUNK_SIZE := by
  by_cases hd : content.data.isEmpty
  · simp only [uploadPieces, hd, if_true] at hi ⊢
    simp only [List.length_singleton] at hi
    have : i = 0 := by omega
    subst this
    simp only [List.isEmpty_iff] at hd
    simp [hd]
  · simp only [uploadPieces, hd, if_false, Bool.false_eq_true] at hi ⊢
    exact chunksOf_getD MAX_CHUNK_SIZE_pos content.data i hi

theorem map_getD_range {α : Type} (l : List α) (d : α) :
    (List.range l.length).map (fun i => l.getD i d) = l := by
  induction l with
  | nil => simp
  | cons x xs ih =>
    rw [List.length_cons, List.range_succ_eq_map, List.map_cons, List.map_map]
    simp only [List.getD_cons_zero]
    have hfn : ((fun i => (x :: xs).getD i d) ∘ Nat.succ) = fun i => xs.getD i d := by
      funext i
      simp
    rw [hfn, ih]

theorem getD_map_range {α : Type} (f : Nat → α) (d : α) (n i : Nat) (h : i < n) :
    ((List.range n).map f).getD i d = f i := by
  rw [List.getD_eq_getElem?_getD, List.getElem?_map, List.getElem?_range h]
  rfl

/-- Claim C2: for every payload successfully uploaded by upload_content_chunks,
the returned chunk-identifier sequence has length
max(1, ceil(L / MAX_CHUNK_SIZE)) (exactly one identifier carrying a zero-byte
chunk for L = 0), the identifiers are ordered by ascending source byte offset
(strictly increasing, and the identifier at position i names exactly the chunk
whose payload starts at byte offset i * MAX_CHUNK_SIZE), and concatenating the
chunk payloads in identifier order reproduces the original payload exactly. -/
theorem upload_chunk_reconstruction (env : Env) (batch_id : Nat)
    (asset_descriptor : AssetDescriptor) (content : Content) (sha256 : Bytes)
    (content_encoding : String) (s : St) (ids : List Nat) (s' : St)
    (h : upload_content_chunks env batch_id asset_descriptor content sha256
      content_encoding s = .ok (ids, s')) :
    ids.length = max 1 (content.data.length ⌈/⌉ MAX_CHUNK_SIZE)
    ∧ ids.Chain' (· < ·)
    ∧ (∀ i, i < ids.length →
        s'.chunks.getD (ids.getD i 0) [] =
          (content.data.drop (i * MAX_CHUNK_SIZE)).take MAX_CHUNK_SIZE)
    ∧ (ids.map (fun id => s'.chunks.getD id [])).flatten = content.data
    ∧ (content.data = [] → ids.length = 1 ∧ s'.chunks.getD (ids.getD 0 0) [] = []) := by
  obtain ⟨hc, hp, hi⟩ := upload_content_chunks_ok env batch_id asset_descriptor
    content sha256 content_encoding s ids s' h
  have hlen : ids.length = (uploadPieces content).length := by
    rw [hi, List.length_map, List.length_range]
  have hlook : ∀ i, i < (uploadPieces content).length →
      s'.chunks.getD (s.chunks.length + i) [] = (uploadPieces content).getD i [] := by
    intro i hilt
    rw [hc, List.getD_append_right s.chunks (uploadPieces content) [] _ (by omega)]
    congr 1
    omega
  have hgetid : ∀ i, i < ids.length → ids.getD i 0 = s.chunks.length + i := by
    intro i hilt
    rw [hi]
    exact getD_map_range _ _ _ _ (by rwa [hlen] at hilt)
  have hpos : ∀ i, i < ids.length →
      s'.chunks.getD (ids.getD i 0) [] =
        (content.data.drop (i * MAX_CHUNK_SIZE)).take MAX_CHUNK_SIZE := by
    intro i hilt
    have hilt' : i < (uploadPieces content).length := hlen ▸ hilt
    rw [hgetid i hilt, hlook i hilt']
    exact uploadPieces_getD content i hilt'
  refine ⟨?_, ?_, hpos, ?_, ?_⟩
  · rw [Nat.ceilDiv_eq_add_pred_div, hlen, uploadPieces_length]
  · rw [hi]
    exact ((List.pairwise_lt_range _).map _ (fun a b hab => by omega)).chain'
  · have hmap : ids.map (fun id => s'.chunks.getD id []) = uploadPieces content := by
      rw [hi, List.map_map]
      have hcomp : ((fun id => s'.chunks.getD id []) ∘ fun i => s.chunks.length + i)
          = fun i => s'.chunks.getD (s.chunks.length + i) [] := rfl
      rw [hcomp]
      have hstep : (List.range (uploadPieces content).length).map
            (fun i => s'.chunks.getD (s.chunks.length + i) [])
          = (List.range (uploadPieces content).length).map
            (fun i => (uploadPieces content).getD i []) := by
        apply List.map_congr_left
        intro i hmem
        exact hlook i (List.mem_range.mp hmem)
      rw [hstep]
      exact map_getD_range _ _
    rw [hmap, uploadPieces_flatten]
  · intro hdata
    have h1 : ids.length = 1 := by
      rw [hlen, uploadPieces_length, hdata]
      simp only [List.length_nil, Nat.zero_add]
      rw [Nat.div_eq_of_lt (by have := MAX_CHUNK_SIZE_pos; omega)]
      simp
    refine ⟨h1, ?_⟩
    have h0 : 0 < ids.length := by omega
    rw [hpos 0 h0, hdata]
    simp

/-! ## Behaviour of make_project_asset_encoding -/

theorem make_project_asset_encoding_ok (env : Env)
    (tgt : Option ChunkUploadTarget) (ad : AssetDescriptor)
    (ca : List (String × AssetDetails)) (content : Content)
    (content_encoding : String) (s : St) (pae : ProjectAssetEncoding) (s' : St)
    (h : make_project_asset_encoding env tgt ad ca content content_encoding s
      = .ok (pae, s')) :
    pae.sha256 = env.hash content.data
    ∧ pae.already_in_place
        = asset_already_in_place ca ad.key content.media_type content_encoding
            (env.hash content.data)
    ∧ s'.permitLog = s.permitLog
    ∧ (pae.already_in_place = true → pae.chunk_ids = [] ∧ s' = s)
    ∧ (tgt = none → pae.chunk_ids = [] ∧ s' = s)
    ∧ (pae.already_in_place = false → ∀ t, tgt = some t →
        upload_content_chunks env t.batch_id ad content (env.hash content.data)
          content_encoding s = .ok (pae.chunk_ids, s')) := by
  cases hflag : asset_already_in_place ca ad.key content.media_type
      content_encoding (env.hash content.data) with
  | true =>
    simp only [make_project_asset_encoding, hflag, if_true, Except.ok.injEq,
      Prod.mk.injEq] at h
    obtain ⟨hpae, hs⟩ := h
    subst hpae
    subst hs
    simp [hflag]
  | false =>
    cases tgt with
    | none =>
      simp only [make_project_asset_encoding, hflag, if_false, Bool.false_eq_true,
        Except.ok.injEq, Prod.mk.injEq] at h
      obtain ⟨hpae, hs⟩ := h
      subst hpae
      subst hs
      simp [hflag]
    | some t =>
      simp only [make_project_asset_encoding, hflag, if_false, Bool.false_eq_true] at h
      cases hup : upload_content_chunks env t.batch_id ad content
          (env.hash content.data) content_encoding s with
      | error e =>
        rw [hup] at h
        exact Except.noConfusion h
      | ok p =>
        obtain ⟨ids, s1⟩ := p
        rw [hup] at h
        simp only [Except.ok.injEq, Prod.mk.injEq] at h
        obtain ⟨hpae, hs⟩ := h
        subst hpae
        subst hs
        obtain ⟨hc, hp, hi⟩ := upload_content_chunks_ok env t.batch_id ad content
          (env.hash content.data) content_encoding s ids s1 hup
        refine ⟨rfl, hflag.symm ▸ rfl, hp, ?_, ?_, ?_⟩
        · intro hcontra
          simp [hflag] at hcontra
        · intro hcontra
          exact Option.noConfusion hcontra
        · intro _ t' ht'
          cases ht'
          exact hup

/-- Within a list of remote encoding entries whose labels are pairwise
distinct, find? on a label returns exactly the member carrying that label. -/
theorem find_label_unique (l : List AssetEncodingDetails) (enc : String)
    (hnd : (l.map (fun e => e.content_encoding)).Nodup)
    (e : AssetEncodingDetails) (he : e ∈ l) (henc : e.content_encoding = enc) :
    l.find? (fun x => x.content_encoding == enc) = some e := by
  induction l with
  | nil => exact absurd he (List.not_mem_nil e)
  | cons x xs ih =>
    rw [List.map_cons, List.nodup_cons] at hnd
    obtain ⟨hx, hxs⟩ := hnd
    by_cases hxe : x.content_encoding = enc
    · have hex : e = x := by
        cases List.mem_cons.mp he with
        | inl h1 => exact h1
        | inr h1 =>
          exfalso
          apply hx
          rw [hxe, ← henc]
          exact List.mem_map.mpr ⟨e, h1, rfl⟩
      subst hex
      rw [List.find?_cons_of_pos]
      simpa using hxe
    · have hex : e ∈ xs := by
        cases List.mem_cons.mp he with
        | inl h1 =>
          exfalso
          exact hxe (h1 ▸ henc)
        | inr h1 => exact h1
      rw [List.find?_cons_of_neg]
      · exact ih hxs hex
      · simpa using hxe

theorem asset_already_in_place_iff (ca : List (String × AssetDetails))
    (key : String) (mt : Mime) (enc : String) (sha : Bytes)
    (hnodup : ∀ d, lookupKV ca key = some d →
      (d.encodings.map (fun e => e.content_encoding)).Nodup) :
    asset_already_in_place ca key mt enc sha = true ↔
      ∃ d, lookupKV ca key = some d ∧ d.content_type = mt.toString
        ∧ ∃ e ∈ d.encodings, e.content_encoding = enc ∧ e.sha256 = some sha := by
  cases hlook : lookupKV ca key with
  | none =>
    simp [asset_already_in_place, hlook]
  | some d =>
    have hnd := hnodup d hlook
    simp only [asset_already_in_place, hlook]
    by_cases hct : d.content_type ≠ mt.toString
    · rw [if_pos hct]
      constructor
      · intro hfalse
        exact absurd hfalse (by simp)
      · rintro ⟨d', hd', hct', -⟩
        injection hd' with hdd
        subst hdd
        exact absurd hct' hct
    · rw [if_neg hct]
      push_neg at hct
      cases hfind : d.encodings.find? (fun x => x.content_encoding == enc) with
      | none =>
        simp only [hfind, Option.none_bind]
        constructor
        · intro hfalse
          exact absurd hfalse (by simp)
        · rintro ⟨d', hd', -, e, he, henc, hsha⟩
          injection hd' with hdd
          subst hdd
          rw [find_label_unique d.encodings enc hnd e he henc] at hfind
          exact Option.noConfusion hfind
      | some ef =>
        have hefmem : ef ∈ d.encodings := List.mem_of_find?_eq_some hfind
        have heflab : ef.content_encoding = enc := by
          have hps := List.find?_some hfind
          simpa using hps
        cases hsha' : ef.sha256 with
        | none =>
          simp only [hfind, Option.some_bind, hsha']
          constructor
          · intro hfalse
            exact absurd hfalse (by simp)
          · rintro ⟨d', hd', -, e, he, henc, hsha⟩
            injection hd' with hdd
            subst hdd
            rw [find_label_unique d.encodings enc hnd e he henc] at hfind
            injection hfind with hee
            subst hee
            rw [hsha] at hsha'
            exact Option.noConfusion hsha'
        | some sh =>
          simp only [hfind, Option.some_bind, hsha']
          constructor
          · intro heq
            refine ⟨d, rfl, hct, ef, hefmem, heflab, ?_⟩
            rw [hsha']
            have hshsha : sh = sha := beq_iff_eq.mp heq
            rw [hshsha]
          · rintro ⟨d', hd', -, e, he, henc, hsha⟩
            injection hd' with hdd
            subst hdd
            rw [find_label_unique d.encodings enc hnd e he henc] at hfind
            injection hfind with hee
            subst hee
            rw [hsha] at hsha'
            injection hsha' with hsh
            rw [hsh]
            exact beq_self_eq_true sh

/-- Claim C1: for every asset and every materialized encoding, the computed
already_in_place flag is true iff the remote snapshot contains the asset key,
the remote entry's content_type equals the string form of the locally
resolved media type, and the remote entry records a digest for this exact
encoding label that equals the locally computed digest of the encoding's
bytes; absence of the asset key always yields already_in_place = false.
(The remote entry is assumed not to list one encoding label twice, which is
the data model's invariant for encoding lists.) -/
theorem claim_dedup_already_in_place_iff (env : Env)
    (tgt : Option ChunkUploadTarget) (ad : AssetDescriptor)
    (ca : List (String × AssetDetails)) (content : Content)
    (content_encoding : String) (s : St) (pae : ProjectAssetEncoding) (s' : St)
    (h : make_project_asset_encoding env tgt ad ca content content_encoding s
      = .ok (pae, s'))
    (hnodup : ∀ d, lookupKV ca ad.key = some d →
      (d.encodings.map (fun e => e.content_encoding)).Nodup) :
    (pae.already_in_place = true ↔
      ∃ d, lookupKV ca ad.key = some d
        ∧ d.content_type = content.media_type.toString
        ∧ ∃ e ∈ d.encodings, e.content_encoding = content_encoding
            ∧ e.sha256 = some (env.hash content.data))
    ∧ (lookupKV ca ad.key = none → pae.already_in_place = false) := by
  obtain ⟨hsha, hflag, -, -, -, -⟩ := make_project_asset_encoding_ok env tgt ad
    ca content content_encoding s pae s' h
  constructor
  · rw [hflag]
    exact asset_already_in_place_iff ca ad.key content.media_type
      content_encoding (env.hash content.data) hnodup
  · intro hnone
    rw [hflag]
    simp [asset_already_in_place, hnone]

/-- Claim C3: every ProjectAssetEncoding produced by
make_project_asset_encoding satisfies: if already_in_place is true then
chunk_ids is empty and no create-remote-chunk call was made (the remote
chunk store is unchanged); if already_in_place is false and an upload
target was supplied then chunk_ids is non-empty, of length
max(1, ceil(payload_length / MAX_CHUNK_SIZE)), and ordered by ascending
byte offset (strictly increasing identifiers). -/
theorem claim_encoding_chunk_invariant (env : Env)
    (tgt : Option ChunkUploadTarget) (ad : AssetDescriptor)
    (ca : List (String × AssetDetails)) (content : Content)
    (content_encoding : String) (s : St) (pae : ProjectAssetEncoding) (s' : St)
    (h : make_project_asset_encoding env tgt ad ca content content_encoding s
      = .ok (pae, s')) :
    (pae.already_in_place = true → pae.chunk_ids = [] ∧ s'.chunks = s.chunks)
    ∧ (pae.already_in_place = false → ∀ t, tgt = some t →
        pae.chunk_ids ≠ []
        ∧ pae.chunk_ids.length = max 1 (content.data.length ⌈/⌉ MAX_CHUNK_SIZE)
        ∧ pae.chunk_ids.Chain' (· < ·)) := by
  obtain ⟨hsha, hflag, hperm, htrue, hnone, hfalse⟩ :=
    make_project_asset_encoding_ok env tgt ad ca content content_encoding s
      pae s' h
  constructor
  · intro ht
    obtain ⟨hids, hs⟩ := htrue ht
    exact ⟨hids, by rw [hs]⟩
  · intro hf t htg
    have hup := hfalse hf t htg
    obtain ⟨hlen, hchain, -, -, -⟩ := upload_chunk_reconstruction env t.batch_id
      ad content (env.hash content.data) content_encoding s pae.chunk_ids s' hup
    have hpos2 : 0 < pae.chunk_ids.length := by
      rw [hlen]
      exact lt_of_lt_of_le Nat.zero_lt_one (le_max_left 1 _)
    exact ⟨List.length_pos.mp hpos2, hlen, hchain⟩

/-! ## Behaviour of make_encoding and make_encodings -/


theorem make_encoding_cases (env : Env) (tgt : Option ChunkUploadTarget)
    (ad : AssetDescriptor) (ca : List (String × AssetDetails))
    (content : Content) (encoder : Option ContentEncoder) (s : St)
    (res : Option (String × ProjectAssetEncoding)) (s' : St)
    (h : make_encoding env tgt ad ca content encoder s = .ok (res, s')) :
    (encoder = none ∧ ∃ pae, res = some (CONTENT_ENCODING_IDENTITY, pae)
       ∧ make_project_asset_encoding env tgt ad ca content
           CONTENT_ENCODING_IDENTITY s = .ok (pae, s'))
    ∨ (∃ enc encoded, encoder = some enc
        ∧ Content.encode env content enc = .ok encoded
        ∧ ((encoded.data.length < content.data.length
              ∧ ∃ pae, res = some (ContentEncoder.toString enc, pae)
                ∧ make_project_asset_encoding env tgt ad ca encoded
                    (ContentEncoder.toString enc) s = .ok (pae, s'))
           ∨ (¬ encoded.data.length < content.data.length
              ∧ res = none ∧ s' = s))) := by
  cases encoder with
  | none =>
    left
    simp only [make_encoding] at h
    cases hm : make_project_asset_encoding env tgt ad ca content
        CONTENT_ENCODING_IDENTITY s with
    | error e =>
      rw [hm] at h
      exact Except.noConfusion h
    | ok p =>
      obtain ⟨pae, s1⟩ := p
      rw [hm] at h
      simp only [Except.ok.injEq, Prod.mk.injEq] at h
      obtain ⟨hres, hs⟩ := h
      refine ⟨rfl, pae, by simp [hres.symm], by simp [hm, hs]⟩
  | some enc =>
    right
    cases henc : Content.encode env content enc with
    | error e =>
      simp only [make_encoding, henc] at h
      exact Except.noConfusion h
    | ok encoded =>
      simp only [make_encoding, henc] at h
      refine ⟨enc, encoded, rfl, by simp [henc], ?_⟩
      by_cases hlt : encoded.data.length < content.data.length
      · left
        rw [if_pos hlt] at h
        cases hm : make_project_asset_encoding env tgt ad ca encoded
            (ContentEncoder.toString enc) s with
        | error e =>
          rw [hm] at h
          exact Except.noConfusion h
        | ok p =>
          obtain ⟨pae, s1⟩ := p
          rw [hm] at h
          simp only [Except.ok.injEq, Prod.mk.injEq] at h
          obtain ⟨hres, hs⟩ := h
          refine ⟨hlt, pae, by simp [hres.symm], by simp [hm, hs]⟩
      · right
        rw [if_neg hlt] at h
        simp only [Except.ok.injEq, Prod.mk.injEq] at h
        obtain ⟨hres, hs⟩ := h
        exact ⟨hlt, hres.symm, hs.symm⟩

theorem make_encoding_permitLog (env : Env) (tgt : Option ChunkUploadTarget)
    (ad : AssetDescriptor) (ca : List (String × AssetDetails))
    (content : Content) (encoder : Option ContentEncoder) (s : St)
    (res : Option (String × ProjectAssetEncoding)) (s' : St)
    (h : make_encoding env tgt ad ca content encoder s = .ok (res, s')) :
    s'.permitLog = s.permitLog := by
  rcases make_encoding_cases env tgt ad ca content encoder s res s' h with
    ⟨-, pae, -, hm⟩ | ⟨enc, encoded, -, -, ⟨-, pae, -, hm⟩ | ⟨-, -, hs⟩⟩
  · exact (make_project_asset_encoding_ok env tgt ad ca content
      CONTENT_ENCODING_IDENTITY s pae s' hm).2.2.1
  · exact (make_project_asset_encoding_ok env tgt ad ca encoded
      (ContentEncoder.toString enc) s pae s' hm).2.2.1
  · rw [hs]

theorem make_encoding_dry_run (env : Env) (ad : AssetDescriptor)
    (ca : List (String × AssetDetails)) (content : Content)
    (encoder : Option ContentEncoder) (s : St)
    (res : Option (String × ProjectAssetEncoding)) (s' : St)
    (h : make_encoding env none ad ca content encoder s = .ok (res, s')) :
    s' = s ∧ ∀ lbl pae, res = some (lbl, pae) → pae.chunk_ids = [] := by
  rcases make_encoding_cases env none ad ca content encoder s res s' h with
    ⟨-, pae, hres, hm⟩ | ⟨enc, encoded, -, -, ⟨-, pae, hres, hm⟩ | ⟨-, hres, hs⟩⟩
  · obtain ⟨hids, hs⟩ := (make_project_asset_encoding_ok env none ad ca content
      CONTENT_ENCODING_IDENTITY s pae s' hm).2.2.2.2.1 rfl
    refine ⟨hs, ?_⟩
    intro lbl pae' hres'
    rw [hres] at hres'
    injection hres' with hpair
    injection hpair with hl hp
    rw [← hp]
    exact hids
  · obtain ⟨hids, hs⟩ := (make_project_asset_encoding_ok env none ad ca encoded
      (ContentEncoder.toString enc) s pae s' hm).2.2.2.2.1 rfl
    refine ⟨hs, ?_⟩
    intro lbl pae' hres'
    rw [hres] at hres'
    injection hres' with hpair
    injection hpair with hl hp
    rw [← hp]
    exact hids
  · refine ⟨hs, ?_⟩
    intro lbl pae' hres'
    rw [hres] at hres'
    exact Option.noConfusion hres'

/-! ## Association-list map lemmas -/

theorem lookupKV_insertKV {α : Type} (m : List (String × α)) (k : String)
    (v : α) (j : String) :
    lookupKV (insertKV m k v) j = if j = k then some v else lookupKV m j := by
  induction m with
  | nil =>
    simp only [insertKV, List.filter_nil, List.nil_append, lookupKV]
    by_cases hj : j = k
    · rw [if_pos hj, if_pos hj.symm]
    · rw [if_neg hj, if_neg (fun hh => hj hh.symm)]
  | cons p ps ih =>
    obtain ⟨pk, pv⟩ := p
    by_cases hpk : pk = k
    · have hfil : insertKV ((pk, pv) :: ps) k v = insertKV ps k v := by
        simp [insertKV, List.filter_cons, hpk]
      rw [hfil, ih]
      by_cases hj : j = k
      · rw [if_pos hj, if_pos hj]
      · rw [if_neg hj, if_neg hj]
        simp only [lookupKV]
        have hpkj : ¬ pk = j := fun hh => hj (hh ▸ hpk)
        rw [if_neg hpkj]
    · have hfil : insertKV ((pk, pv) :: ps) k v = (pk, pv) :: insertKV ps k v := by
        simp [insertKV, List.filter_cons, hpk]
      rw [hfil]
      simp only [lookupKV]
      by_cases hpj : pk = j
      · rw [if_pos hpj, if_neg (fun hh : j = k => hpk (hpj ▸ hh)), if_pos hpj]
      · rw [if_neg hpj, if_neg hpj, ih]

theorem lookupKV_foldl_insertKV {α : Type} (l : List (String × α)) :
    ∀ (init : List (String × α)) (k : String),
    lookupKV (l.foldl (fun r kv => insertKV r kv.1 kv.2) init) k
      = match l.reverse.find? (fun kv => kv.1 == k) with
        | some kv => some kv.2
        | none => lookupKV init k := by
  induction l with
  | nil =>
    intro init k
    simp [lookupKV]
  | cons p ps ih =>
    intro init k
    rw [List.foldl_cons, ih, List.reverse_cons, List.find?_append]
    cases hf : ps.reverse.find? (fun kv => kv.1 == k) with
    | some kv =>
      rw [Option.or_some]
    | none =>
      rw [Option.none_or]
      by_cases hpk : p.1 = k
      · have hfind : List.find? (fun kv => kv.1 == k) [p] = some p := by
          rw [List.find?_cons_of_pos]
          simpa using hpk
        rw [hfind, lookupKV_insertKV, if_pos hpk.symm]
      · have hfind : List.find? (fun kv => kv.1 == k) [p] = none := by
          rw [List.find?_cons_of_neg]
          · rfl
          · simpa using hpk
        rw [hfind, lookupKV_insertKV, if_neg (fun hh => hpk hh.symm)]

theorem mem_insertKV {α : Type} (m : List (String × α)) (k : String) (v : α)
    (p : String × α) (hp : p ∈ insertKV m k v) : p ∈ m ∨ p = (k, v) := by
  simp only [insertKV, List.mem_append, List.mem_filter,
    List.mem_singleton] at hp
  rcases hp with ⟨hm, -⟩ | hp
  · exact Or.inl hm
  · exact Or.inr hp

theorem mem_foldl_insertKV {α : Type} (l : List (String × α)) :
    ∀ (init : List (String × α)) (p : String × α),
    p ∈ l.foldl (fun r kv => insertKV r kv.1 kv.2) init → p ∈ init ∨ p ∈ l := by
  induction l with
  | nil =>
    intro init p hp
    exact Or.inl hp
  | cons q qs ih =>
    intro init p hp
    rw [List.foldl_cons] at hp
    rcases ih _ p hp with h1 | h1
    · rcases mem_insertKV _ _ _ _ h1 with h2 | h2
      · exact Or.inl h2
      · rw [h2]
        exact Or.inr (List.mem_cons_self q qs)
    · exact Or.inr (List.mem_cons_of_mem q h1)

theorem length_insertKV_le {α : Type} (m : List (String × α)) (k : String)
    (v : α) : (insertKV m k v).length ≤ m.length + 1 := by
  simp only [insertKV, List.length_append, List.length_singleton]
  have := List.length_filter_le (fun p : String × α => p.1 != k) m
  omega

theorem length_foldl_insertKV_le {α : Type} (l : List (String × α)) :
    ∀ (init : List (String × α)),
    (l.foldl (fun r kv => insertKV r kv.1 kv.2) init).length
      ≤ init.length + l.length := by
  induction l with
  | nil =>
    intro init
    simp
  | cons q qs ih =>
    intro init
    rw [List.foldl_cons]
    calc (qs.foldl (fun r kv => insertKV r kv.1 kv.2) (insertKV init q.1 q.2)).length
        ≤ (insertKV init q.1 q.2).length + qs.length := ih _
      _ ≤ init.length + 1 + qs.length := by
          have := length_insertKV_le init q.1 q.2
          omega
      _ = init.length + (q :: qs).length := by
          rw [List.length_cons]
          omega

theorem make_encoding_list_nil_ok (env : Env) (tgt : Option ChunkUploadTarget)
    (ad : AssetDescriptor) (ca : List (String × AssetDetails))
    (content : Content) (s : St)
    (rs : List (Option (String × ProjectAssetEncoding))) (s' : St)
    (h : make_encoding_list env tgt ad ca content [] s = .ok (rs, s')) :
    rs = [] ∧ s' = s := by
  simp only [make_encoding_list, Except.ok.injEq, Prod.mk.injEq] at h
  exact ⟨h.1.symm, h.2.symm⟩

theorem make_encoding_list_cons_ok (env : Env) (tgt : Option ChunkUploadTarget)
    (ad : AssetDescriptor) (ca : List (String × AssetDetails))
    (content : Content) (e : Option ContentEncoder)
    (es : List (Option ContentEncoder)) (s : St)
    (rs : List (Option (String × ProjectAssetEncoding))) (s' : St)
    (h : make_encoding_list env tgt ad ca content (e :: es) s = .ok (rs, s')) :
    ∃ r s1 rs1, make_encoding env tgt ad ca content e s = .ok (r, s1)
      ∧ make_encoding_list env tgt ad ca content es s1 = .ok (rs1, s')
      ∧ rs = r :: rs1 := by
  simp only [make_encoding_list] at h
  cases hme : make_encoding env tgt ad ca content e s with
  | error err =>
    rw [hme] at h
    exact Except.noConfusion h
  | ok p =>
    obtain ⟨r, s1⟩ := p
    rw [hme] at h
    simp only [Except.ok.injEq] at h
    cases hrec : make_encoding_list env tgt ad ca content es s1 with
    | error err =>
      rw [hrec] at h
      exact Except.noConfusion h
    | ok q =>
      obtain ⟨rs1, s2⟩ := q
      rw [hrec] at h
      simp only [Except.ok.injEq, Prod.mk.injEq] at h
      obtain ⟨hrs, hs⟩ := h
      exact ⟨r, s1, rs1, rfl, hs ▸ hrec, hrs.symm⟩

theorem make_encoding_list_permitLog (env : Env)
    (tgt : Option ChunkUploadTarget) (ad : AssetDescriptor)
    (ca : List (String × AssetDetails)) (content : Content) :
    ∀ (es : List (Option ContentEncoder)) (s : St)
      (rs : List (Option (String × ProjectAssetEncoding))) (s' : St),
    make_encoding_list env tgt ad ca content es s = .ok (rs, s') →
    s'.permitLog = s.permitLog := by
  intro es
  induction es with
  | nil =>
    intro s rs s' h
    obtain ⟨-, hs⟩ := make_encoding_list_nil_ok env tgt ad ca content s rs s' h
    rw [hs]
  | cons e es ih =>
    intro s rs s' h
    obtain ⟨r, s1, rs1, hme, hrec, -⟩ :=
      make_encoding_list_cons_ok env tgt ad ca content e es s rs s' h
    rw [ih s1 rs1 s' hrec]
    exact make_encoding_permitLog env tgt ad ca content e s r s1 hme

theorem make_encoding_list_dry_run (env : Env) (ad : AssetDescriptor)
    (ca : List (String × AssetDetails)) (content : Content) :
    ∀ (es : List (Option ContentEncoder)) (s : St)
      (rs : List (Option (String × ProjectAssetEncoding))) (s' : St),
    make_encoding_list env none ad ca content es s = .ok (rs, s') →
    s' = s ∧ ∀ r ∈ rs, ∀ lbl pae, r = some (lbl, pae) → pae.chunk_ids = [] := by
  intro es
  induction es with
  | nil =>
    intro s rs s' h
    obtain ⟨hrs, hs⟩ := make_encoding_list_nil_ok env none ad ca content s rs s' h
    refine ⟨hs, ?_⟩
    intro r hr
    rw [hrs] at hr
    exact absurd hr (List.not_mem_nil r)
  | cons e es ih =>
    intro s rs s' h
    obtain ⟨r, s1, rs1, hme, hrec, hrs⟩ :=
      make_encoding_list_cons_ok env none ad ca content e es s rs s' h
    obtain ⟨hs1, hr1⟩ := make_encoding_dry_run env ad ca content e s r s1 hme
    obtain ⟨hs2, hr2⟩ := ih s1 rs1 s' hrec
    refine ⟨by rw [hs2, hs1], ?_⟩
    intro r' hr' lbl pae hsome
    rw [hrs] at hr'
    cases List.mem_cons.mp hr' with
    | inl h1 =>
      exact hr1 lbl pae (h1 ▸ hsome)
    | inr h1 =>
      exact hr2 r' h1 lbl pae hsome

theorem make_encodings_ok (env : Env) (tgt : Option ChunkUploadTarget)
    (ad : AssetDescriptor) (ca : List (String × AssetDetails))
    (content : Content) (s : St)
    (m : List (String × ProjectAssetEncoding)) (s' : St)
    (h : make_encodings env tgt ad ca content s = .ok (m, s')) :
    ∃ rs, make_encoding_list env tgt ad ca content
        (none :: (applicable_encoders content.media_type).map some) s
          = .ok (rs, s')
      ∧ m = (rs.filterMap id).foldl
          (fun result kv => insertKV result kv.1 kv.2) [] := by
  simp only [make_encodings] at h
  cases hml : make_encoding_list env tgt ad ca content
      (none :: (applicable_encoders content.media_type).map some) s with
  | error e =>
    rw [hml] at h
    exact Except.noConfusion h
  | ok p =>
    obtain ⟨rs, s1⟩ := p
    rw [hml] at h
    simp only [Except.ok.injEq, Prod.mk.injEq] at h
    obtain ⟨hm, hs⟩ := h
    exact ⟨rs, by rw [hs], hm.symm⟩

/-! ## Behaviour of make_project_asset and make_project_assets -/

theorem make_project_asset_ok (env : Env) (tgt : Option ChunkUploadTarget)
    (ad : AssetDescriptor) (ca : List (String × AssetDetails)) (s : St)
    (pa : ProjectAsset) (s' : St)
    (h : make_project_asset env tgt ad ca s = .ok (pa, s')) :
    ∃ file_size content,
      env.metaFs ad.source = .ok file_size
      ∧ env.loadFs ad.source = .ok content
      ∧ pa.asset_descriptor = ad
      ∧ pa.media_type = content.media_type
      ∧ make_encodings env tgt ad ca content
          (St.mk s.chunks (s.permitLog ++ [filePermits file_size]))
            = .ok (pa.encodings, s')
      ∧ s'.permitLog = s.permitLog ++ [filePermits file_size] := by
  simp only [make_project_asset] at h
  cases hmeta : env.metaFs ad.source with
  | error msg =>
    rw [hmeta] at h
    exact Except.noConfusion h
  | ok file_size =>
    rw [hmeta] at h
    simp only [Except.ok.injEq] at h
    cases hload : env.loadFs ad.source with
    | error msg =>
      rw [hload] at h
      exact Except.noConfusion h
    | ok content =>
      rw [hload] at h
      simp only [Except.ok.injEq] at h
      cases henc : make_encodings env tgt ad ca content
          (St.mk s.chunks (s.permitLog ++ [filePermits file_size])) with
      | error e =>
        rw [henc] at h
        exact Except.noConfusion h
      | ok p =>
        obtain ⟨encodings, s2⟩ := p
        rw [henc] at h
        simp only [Except.ok.injEq, Prod.mk.injEq] at h
        obtain ⟨hpa, hs⟩ := h
        subst hs
        rw [← hpa]
        refine ⟨file_size, content, rfl, rfl, rfl, rfl, henc, ?_⟩
        exact (make_encoding_list_permitLog env tgt ad ca content _ _ _ _
          (make_encodings_ok env tgt ad ca content _ _ _ henc).choose_spec.1)

theorem make_project_asset_list_nil_ok (env : Env)
    (tgt : Option ChunkUploadTarget) (ca : List (String × AssetDetails))
    (s : St) (pas : List ProjectAsset) (s' : St)
    (h : make_project_asset_list env tgt ca [] s = .ok (pas, s')) :
    pas = [] ∧ s' = s := by
  simp only [make_project_asset_list, Except.ok.injEq, Prod.mk.injEq] at h
  exact ⟨h.1.symm, h.2.symm⟩

theorem make_project_asset_list_cons_ok (env : Env)
    (tgt : Option ChunkUploadTarget) (ca : List (String × AssetDetails))
    (d : AssetDescriptor) (ds : List AssetDescriptor) (s : St)
    (pas : List ProjectAsset) (s' : St)
    (h : make_project_asset_list env tgt ca (d :: ds) s = .ok (pas, s')) :
    ∃ pa s1 pas1, make_project_asset env tgt d ca s = .ok (pa, s1)
      ∧ make_project_asset_list env tgt ca ds s1 = .ok (pas1, s')
      ∧ pas = pa :: pas1 := by
  simp only [make_project_asset_list] at h
  cases hmp : make_project_asset env tgt d ca s with
  | error e =>
    rw [hmp] at h
    exact Except.noConfusion h
  | ok p =>
    obtain ⟨pa, s1⟩ := p
    rw [hmp] at h
    simp only [Except.ok.injEq] at h
    cases hrec : make_project_asset_list env tgt ca ds s1 with
    | error e =>
      rw [hrec] at h
      exact Except.noConfusion h
    | ok q =>
      obtain ⟨pas1, s2⟩ := q
      rw [hrec] at h
      simp only [Except.ok.injEq, Prod.mk.injEq] at h
      obtain ⟨hpas, hs⟩ := h
      exact ⟨pa, s1, pas1, rfl, hs ▸ hrec, hpas.symm⟩

theorem make_project_asset_list_rel (env : Env)
    (tgt : Option ChunkUploadTarget) (ca : List (String × AssetDetails)) :
    ∀ (ds : List AssetDescriptor) (s : St) (pas : List ProjectAsset) (s' : St),
    make_project_asset_list env tgt ca ds s = .ok (pas, s') →
    List.Forall₂ (fun d (pa : ProjectAsset) => pa.asset_descriptor = d) ds pas := by
  intro ds
  induction ds with
  | nil =>
    intro s pas s' h
    obtain ⟨hpas, -⟩ := make_project_asset_list_nil_ok env tgt ca s pas s' h
    rw [hpas]
    exact List.Forall₂.nil
  | cons d ds ih =>
    intro s pas s' h
    obtain ⟨pa, s1, pas1, hmp, hrec, hpas⟩ :=
      make_project_asset_list_cons_ok env tgt ca d ds s pas s' h
    rw [hpas]
    refine List.Forall₂.cons ?_ (ih s1 pas1 s' hrec)
    obtain ⟨-, -, -, -, hd, -⟩ := make_project_asset_ok env tgt d ca s pa s1 hmp
    exact hd

theorem make_project_asset_list_append_error (env : Env)
    (tgt : Option ChunkUploadTarget) (ca : List (String × AssetDetails)) :
    ∀ (pre : List AssetDescriptor) (s : St) (as1 : List ProjectAsset) (s1 : St),
    make_project_asset_list env tgt ca pre s = .ok (as1, s1) →
    ∀ (d : AssetDescriptor) (post : List AssetDescriptor) (e : UploadError),
    make_project_asset env tgt d ca s1 = .error e →
    make_project_asset_list env tgt ca (pre ++ d :: post) s = .error e := by
  intro pre
  induction pre with
  | nil =>
    intro s as1 s1 h d post e hf
    obtain ⟨-, hs1⟩ := make_project_asset_list_nil_ok env tgt ca s as1 s1 h
    rw [List.nil_append]
    rw [hs1] at hf
    simp only [make_project_asset_list, hf]
  | cons p ps ih =>
    intro s as1 s1 h d post e hf
    obtain ⟨pa, sm, pas1, hmp, hrec, -⟩ :=
      make_project_asset_list_cons_ok env tgt ca p ps s as1 s1 h
    rw [List.cons_append]
    simp only [make_project_asset_list, hmp,
      ih sm pas1 s1 hrec d post e hf]

theorem make_project_assets_ok (env : Env) (tgt : Option ChunkUploadTarget)
    (ds : List AssetDescriptor) (ca : List (String × AssetDetails)) (s : St)
    (m : List (String × ProjectAsset)) (s' : St)
    (h : make_project_assets env tgt ds ca s = .ok (m, s')) :
    ∃ pas, make_project_asset_list env tgt ca ds s = .ok (pas, s')
      ∧ m = pas.foldl
          (fun hm pa => insertKV hm pa.asset_descriptor.key pa) [] := by
  simp only [make_project_assets] at h
  cases hml : make_project_asset_list env tgt ca ds s with
  | error e =>
    rw [hml] at h
    exact Except.noConfusion h
  | ok p =>
    obtain ⟨pas, s1⟩ := p
    rw [hml] at h
    simp only [Except.ok.injEq, Prod.mk.injEq] at h
    obtain ⟨hm, hs⟩ := h
    exact ⟨pas, by rw [hs], hm.symm⟩

theorem lookupKV_foldl_isSome_of_init {α : Type} (l : List (String × α)) :
    ∀ (init : List (String × α)) (k : String), (lookupKV init k).isSome →
    (lookupKV (l.foldl (fun r kv => insertKV r kv.1 kv.2) init) k).isSome := by
  induction l with
  | nil =>
    intro init k hk
    exact hk
  | cons q qs ih =>
    intro init k hk
    rw [List.foldl_cons]
    apply ih
    rw [lookupKV_insertKV]
    by_cases hq : k = q.1
    · rw [if_pos hq]
      rfl
    · rw [if_neg hq]
      exact hk

theorem make_encodings_identity (env : Env) (tgt : Option ChunkUploadTarget)
    (ad : AssetDescriptor) (ca : List (String × AssetDetails))
    (content : Content) (s : St) (m : List (String × ProjectAssetEncoding))
    (s' : St) (h : make_encodings env tgt ad ca content s = .ok (m, s')) :
    (lookupKV m CONTENT_ENCODING_IDENTITY).isSome := by
  obtain ⟨rs, hlist, hm⟩ := make_encodings_ok env tgt ad ca content s m s' h
  obtain ⟨r0, s1, rs1, hme, hrest, hrs⟩ :=
    make_encoding_list_cons_ok env tgt ad ca content none _ s rs s' hlist
  rcases make_encoding_cases env tgt ad ca content none s r0 s1 hme with
    ⟨-, pae, hres, -⟩ | ⟨enc, encoded, henc', -⟩
  · have hfm : List.filterMap id (some (CONTENT_ENCODING_IDENTITY, pae) :: rs1)
        = (CONTENT_ENCODING_IDENTITY, pae) :: List.filterMap id rs1 := rfl
    rw [hm, hrs, hres, hfm, List.foldl_cons]
    apply lookupKV_foldl_isSome_of_init
    rw [lookupKV_insertKV, if_pos rfl]
    rfl
  · exact Option.noConfusion henc'

/-- In a dry run (no upload target) make_project_asset leaves the remote
chunk store untouched and returns only empty chunk-identifier lists. -/
theorem make_project_asset_dry_run (env : Env) (ad : AssetDescriptor)
    (ca : List (String × AssetDetails)) (s : St) (pa : ProjectAsset) (s' : St)
    (h : make_project_asset env none ad ca s = .ok (pa, s')) :
    s'.chunks = s.chunks
    ∧ ∀ kv ∈ pa.encodings, (kv : String × ProjectAssetEncoding).2.chunk_ids = [] := by
  obtain ⟨file_size, content, -, -, -, -, hencs, -⟩ :=
    make_project_asset_ok env none ad ca s pa s' h
  obtain ⟨rs, hlist, hm⟩ := make_encodings_ok env none ad ca content _ _ _ hencs
  obtain ⟨hs, hall⟩ := make_encoding_list_dry_run env ad ca content _ _ _ _ hlist
  constructor
  · rw [hs]
  · intro kv hkv
    rw [hm] at hkv
    rcases mem_foldl_insertKV _ _ _ hkv with h1 | h1
    · exact absurd h1 (List.not_mem_nil kv)
    · obtain ⟨r, hr, hid⟩ := List.mem_filterMap.mp h1
      exact hall r hr kv.1 kv.2 (by simpa using hid)

theorem make_project_asset_list_dry_run (env : Env)
    (ca : List (String × AssetDetails)) :
    ∀ (ds : List AssetDescriptor) (s : St) (pas : List ProjectAsset) (s' : St),
    make_project_asset_list env none ca ds s = .ok (pas, s') →
    s'.chunks = s.chunks
    ∧ ∀ pa ∈ pas, ∀ kv ∈ (pa : ProjectAsset).encodings,
        (kv : String × ProjectAssetEncoding).2.chunk_ids = [] := by
  intro ds
  induction ds with
  | nil =>
    intro s pas s' h
    obtain ⟨hpas, hs⟩ := make_project_asset_list_nil_ok env none ca s pas s' h
    refine ⟨by rw [hs], ?_⟩
    intro pa hpa
    rw [hpas] at hpa
    exact absurd hpa (List.not_mem_nil pa)
  | cons d ds ih =>
    intro s pas s' h
    obtain ⟨pa, s1, pas1, hmp, hrec, hpas⟩ :=
      make_project_asset_list_cons_ok env none ca d ds s pas s' h
    obtain ⟨hc1, hkv1⟩ := make_project_asset_dry_run env d ca s pa s1 hmp
    obtain ⟨hc2, hkv2⟩ := ih s1 pas1 s' hrec
    refine ⟨by rw [hc2, hc1], ?_⟩
    intro pa' hpa'
    rw [hpas] at hpa'
    cases List.mem_cons.mp hpa' with
    | inl h1 => exact h1 ▸ hkv1
    | inr h1 => exact hkv2 pa' h1

theorem forall₂_find?_rel {α β : Type} (R : α → β → Prop) (p : α → Bool)
    (q : β → Bool) (hpq : ∀ a b, R a b → p a = q b) :
    ∀ (l1 : List α) (l2 : List β), List.Forall₂ R l1 l2 →
    ∀ b, l2.find? q = some b → ∃ a, l1.find? p = some a ∧ R a b := by
  intro l1 l2 hrel
  induction hrel with
  | nil =>
    intro b hb
    exact absurd hb (by simp)
  | @cons x y l1' l2' hxy hrest ih =>
    intro b hb
    cases hqy : q y with
    | true =>
      rw [List.find?_cons_of_pos _ hqy] at hb
      injection hb with hby
      refine ⟨x, ?_, hby ▸ hxy⟩
      rw [List.find?_cons_of_pos]
      rw [hpq x y hxy, hqy]
    | false =>
      rw [List.find?_cons_of_neg _ (by simp [hqy])] at hb
      obtain ⟨a, ha, hab⟩ := ih b hb
      refine ⟨a, ?_, hab⟩
      rw [List.find?_cons_of_neg]
      · exact ha
      · simp [hpq x y hxy, hqy]

theorem forall₂_exists_iff {α β : Type} (R : α → β → Prop) (p : α → Bool)
    (q : β → Bool) (hpq : ∀ a b, R a b → p a = q b) :
    ∀ (l1 : List α) (l2 : List β), List.Forall₂ R l1 l2 →
    ((∃ a ∈ l1, p a = true) ↔ (∃ b ∈ l2, q b = true)) := by
  intro l1 l2 hrel
  induction hrel with
  | nil => simp
  | @cons x y l1' l2' hxy hrest ih =>
    simp only [List.mem_cons]
    constructor
    · rintro ⟨a, ha | ha, hpa⟩
      · exact ⟨y, Or.inl rfl, by rw [← hpq x y hxy, ← ha]; exact hpa⟩
      · obtain ⟨b, hb, hqb⟩ := ih.mp ⟨a, ha, hpa⟩
        exact ⟨b, Or.inr hb, hqb⟩
    · rintro ⟨b, hb | hb, hqb⟩
      · exact ⟨x, Or.inl rfl, by rw [hpq x y hxy]; exact hb ▸ hqb⟩
      · obtain ⟨a, ha, hpa⟩ := ih.mpr ⟨b, hb, hqb⟩
        exact ⟨a, Or.inr ha, hpa⟩

theorem lookup_foldl_insert_assets (pas : List ProjectAsset) (k : String) :
    lookupKV (pas.foldl
        (fun hm pa => insertKV hm pa.asset_descriptor.key pa) []) k
      = pas.reverse.find? (fun pa => pa.asset_descriptor.key == k) := by
  have hfold : pas.foldl (fun hm pa => insertKV hm pa.asset_descriptor.key pa) []
      = (pas.map (fun pa => (pa.asset_descriptor.key, pa))).foldl
          (fun r kv => insertKV r kv.1 kv.2) [] := by
    rw [List.foldl_map]
  rw [hfold, lookupKV_foldl_insertKV, ← List.map_reverse, List.find?_map]
  cases hf : pas.reverse.find?
      ((fun kv : String × ProjectAsset => kv.1 == k)
        ∘ (fun pa => (pa.asset_descriptor.key, pa))) with
  | none =>
    have hf2 : pas.reverse.find? (fun pa => pa.asset_descriptor.key == k) = none := hf
    rw [hf2]
    simp [lookupKV]
  | some pa =>
    have hf2 : pas.reverse.find? (fun pa => pa.asset_descriptor.key == k) = some pa := hf
    rw [hf2]
    simp

/-- Claim C4: for an asset whose media type qualifies for compression, the
compressed (gzip) variant appears in the asset's encodings map iff the
transformed byte length is strictly smaller than the original byte length;
when the transformed length equals or exceeds the original, make_encoding
returns no variant and uploads nothing for it (its state is unchanged), and
the variant is absent from the make_encodings result map. -/
theorem claim_compressed_variant_iff_shrinks :
    (∀ (env : Env) (tgt : Option ChunkUploadTarget) (ad : AssetDescriptor)
      (ca : List (String × AssetDetails)) (content encoded : Content) (s : St)
      (res : Option (String × ProjectAssetEncoding)) (s' : St),
      Content.encode env content ContentEncoder.gzip = .ok encoded →
      make_encoding env tgt ad ca content (some ContentEncoder.gzip) s
        = .ok (res, s') →
      (((∃ pae, res = some ("gzip", pae))
          ↔ encoded.data.length < content.data.length)
        ∧ (¬ encoded.data.length < content.data.length → res = none ∧ s' = s)))
    ∧ (∀ (env : Env) (tgt : Option ChunkUploadTarget) (ad : AssetDescriptor)
      (ca : List (String × AssetDetails)) (content encoded : Content) (s : St)
      (m : List (String × ProjectAssetEncoding)) (s' : St),
      Content.encode env content ContentEncoder.gzip = .ok encoded →
      applicable_encoders content.media_type = [ContentEncoder.gzip] →
      make_encodings env tgt ad ca content s = .ok (m, s') →
      ((lookupKV m "gzip").isSome ↔ encoded.data.length < content.data.length)) := by
  have part1 : ∀ (env : Env) (tgt : Option ChunkUploadTarget)
      (ad : AssetDescriptor) (ca : List (String × AssetDetails))
      (content encoded : Content) (s : St)
      (res : Option (String × ProjectAssetEncoding)) (s' : St),
      Content.encode env content ContentEncoder.gzip = .ok encoded →
      make_encoding env tgt ad ca content (some ContentEncoder.gzip) s
        = .ok (res, s') →
      (((∃ pae, res = some ("gzip", pae))
          ↔ encoded.data.length < content.data.length)
        ∧ (¬ encoded.data.length < content.data.length → res = none ∧ s' = s)) := by
    intro env tgt ad ca content encoded s res s' henc hme
    rcases make_encoding_cases env tgt ad ca content (some ContentEncoder.gzip)
        s res s' hme with ⟨hcontra, -⟩ | ⟨enc, encoded', hsome, henc', hord⟩
    · exact Option.noConfusion hcontra
    · injection hsome with hencg
      subst hencg
      rw [henc] at henc'
      injection henc' with hencneq
      subst hencneq
      rcases hord with ⟨hlt, pae, hres, -⟩ | ⟨hnlt, hres, hs⟩
      · refine ⟨⟨fun _ => hlt, fun _ => ⟨pae, hres⟩⟩, fun hn => absurd hlt hn⟩
      · refine ⟨⟨?_, fun hlt => absurd hlt hnlt⟩, fun _ => ⟨hres, hs⟩⟩
        rintro ⟨pae, hres'⟩
        rw [hres] at hres'
        exact Option.noConfusion hres'
  refine ⟨part1, ?_⟩
  intro env tgt ad ca content encoded s m s' henc happ h
  obtain ⟨rs, hlist, hm⟩ := make_encodings_ok env tgt ad ca content s m s' h
  rw [happ] at hlist
  simp only [List.map_cons, List.map_nil] at hlist
  obtain ⟨r0, s1, rs1, hme0, hrest, hrs⟩ :=
    make_encoding_list_cons_ok env tgt ad ca content none _ s rs s' hlist
  obtain ⟨r1, s2, rs2, hme1, hrest2, hrs1⟩ :=
    make_encoding_list_cons_ok env tgt ad ca content (some ContentEncoder.gzip)
      _ s1 rs1 s' hrest
  obtain ⟨hrs2, -⟩ := make_encoding_list_nil_ok env tgt ad ca content s2 rs2 s' hrest2
  rcases make_encoding_cases env tgt ad ca content none s r0 s1 hme0 with
    ⟨-, pae0, hres0, -⟩ | ⟨enc, -, hcontra, -⟩
  · obtain ⟨hiff1, himp1⟩ := part1 env tgt ad ca content encoded s1 r1 s2 henc hme1
    by_cases hlt : encoded.data.length < content.data.length
    · obtain ⟨pae1, hres1⟩ := hiff1.mpr hlt
      rw [hm, hrs, hrs1, hrs2, hres0, hres1]
      have hfm : List.filterMap id
          [some (CONTENT_ENCODING_IDENTITY, pae0), some ("gzip", pae1)]
            = [(CONTENT_ENCODING_IDENTITY, pae0), ("gzip", pae1)] := rfl
      rw [hfm]
      simp only [List.foldl_cons, List.foldl_nil]
      rw [lookupKV_insertKV, if_pos rfl]
      simp [hlt]
    · obtain ⟨hres1, -⟩ := himp1 hlt
      rw [hm, hrs, hrs1, hrs2, hres0, hres1]
      have hfm : List.filterMap id
          [some (CONTENT_ENCODING_IDENTITY, pae0), none]
            = [(CONTENT_ENCODING_IDENTITY, pae0)] := rfl
      rw [hfm]
      simp only [List.foldl_cons, List.foldl_nil]
      have hins : insertKV ([] : List (String × ProjectAssetEncoding))
          CONTENT_ENCODING_IDENTITY pae0 = [(CONTENT_ENCODING_IDENTITY, pae0)] := rfl
      rw [hins]
      have hlook : lookupKV [(CONTENT_ENCODING_IDENTITY, pae0)] "gzip" = none := by
        simp only [lookupKV, CONTENT_ENCODING_IDENTITY]
        rw [if_neg (by decide)]
      rw [hlook]
      simp [hlt]
  · exact Option.noConfusion hcontra

/-- Claim C5: for every file of size n, the number of file-semaphore permits
acquired before loading its content equals
max(1, min(ceil(n / 1_000_000), 45)); in particular a zero-byte file costs
exactly one permit. -/
theorem claim_file_permit_cost (env : Env) (tgt : Option ChunkUploadTarget)
    (ad : AssetDescriptor) (ca : List (String × AssetDetails)) (s : St)
    (pa : ProjectAsset) (s' : St) (n : Nat)
    (h : make_project_asset env tgt ad ca s = .ok (pa, s'))
    (hsize : env.metaFs ad.source = .ok n) :
    s'.permitLog = s.permitLog ++ [max 1 (min (n ⌈/⌉ 1000000) MAX_COST_SINGLE_FILE_MB)]
    ∧ (n = 0 → s'.permitLog = s.permitLog ++ [1]) := by
  obtain ⟨fs, content, hmeta, -, -, -, -, hperm⟩ :=
    make_project_asset_ok env tgt ad ca s pa s' h
  rw [hsize] at hmeta
  injection hmeta with hfs
  subst hfs
  have hceil : n ⌈/⌉ 1000000 = (n + 999999) / 1000000 := by
    rw [Nat.ceilDiv_eq_add_pred_div]
    omega
  have hval : filePermits n
      = max 1 (min (n ⌈/⌉ 1000000) MAX_COST_SINGLE_FILE_MB) := by
    rw [hceil]
    rfl
  constructor
  · rw [hperm, hval]
  · intro h0
    subst h0
    rw [hperm]
    rfl

/-- Claim C6: if any per-asset task fails, the whole make_project_assets run
returns that first error unchanged (the error value names the failing
operation stage and its input), and no partial result map is returned: the
run's result can never be an ok map. -/
theorem claim_first_error_fatal (env : Env) (tgt : Option ChunkUploadTarget)
    (ca : List (String × AssetDetails)) (pre : List AssetDescriptor)
    (d : AssetDescriptor) (post : List AssetDescriptor) (s : St)
    (as1 : List ProjectAsset) (s1 : St) (e : UploadError)
    (hpre : make_project_asset_list env tgt ca pre s = .ok (as1, s1))
    (hf : make_project_asset env tgt d ca s1 = .error e) :
    make_project_assets env tgt (pre ++ d :: post) ca s = .error e
    ∧ ∀ m s', make_project_assets env tgt (pre ++ d :: post) ca s ≠ .ok (m, s') := by
  have hlist := make_project_asset_list_append_error env tgt ca pre s as1 s1
    hpre d post e hf
  have herr : make_project_assets env tgt (pre ++ d :: post) ca s = .error e := by
    simp only [make_project_assets, hlist]
  refine ⟨herr, ?_⟩
  intro m s' hok
  rw [herr] at hok
  exact Except.noConfusion hok

/-- Claim C7: a compressed variant is attempted exactly when the media type's
top-level type is text or its subtype is javascript or html; for any other
media type no encoder is applicable and a successful make_encodings run
returns a map holding only the identity encoding. -/
theorem claim_compression_applicability :
    (∀ m : Mime, applicable_encoders m = [ContentEncoder.gzip]
        ↔ (m.type_ = "text" ∨ m.subtype = "javascript" ∨ m.subtype = "html"))
    ∧ (∀ m : Mime, applicable_encoders m = []
        ↔ ¬ (m.type_ = "text" ∨ m.subtype = "javascript" ∨ m.subtype = "html"))
    ∧ (∀ (env : Env) (tgt : Option ChunkUploadTarget) (ad : AssetDescriptor)
        (ca : List (String × AssetDetails)) (content : Content) (s : St)
        (mm : List (String × ProjectAssetEncoding)) (s' : St),
        ¬ (content.media_type.type_ = "text"
            ∨ content.media_type.subtype = "javascript"
            ∨ content.media_type.subtype = "html") →
        make_encodings env tgt ad ca content s = .ok (mm, s') →
        ∃ pae, mm = [(CONTENT_ENCODING_IDENTITY, pae)]) := by
  refine ⟨?_, ?_, ?_⟩
  · intro m
    by_cases hc : m.type_ = "text" ∨ m.subtype = "javascript" ∨ m.subtype = "html"
    · simp [applicable_encoders, hc]
    · simp [applicable_encoders, hc]
  · intro m
    by_cases hc : m.type_ = "text" ∨ m.subtype = "javascript" ∨ m.subtype = "html"
    · simp [applicable_encoders, hc]
    · simp [applicable_encoders, hc]
  · intro env tgt ad ca content s mm s' hc h
    have happ : applicable_encoders content.media_type = [] := by
      simp [applicable_encoders, hc]
    obtain ⟨rs, hlist, hm⟩ := make_encodings_ok env tgt ad ca content s mm s' h
    rw [happ] at hlist
    simp only [List.map_nil] at hlist
    obtain ⟨r0, s1, rs1, hme0, hrest, hrs⟩ :=
      make_encoding_list_cons_ok env tgt ad ca content none [] s rs s' hlist
    obtain ⟨hrs1, -⟩ := make_encoding_list_nil_ok env tgt ad ca content s1 rs1 s' hrest
    rcases make_encoding_cases env tgt ad ca content none s r0 s1 hme0 with
      ⟨-, pae0, hres0, -⟩ | ⟨enc, -, hcontra, -⟩
    · refine ⟨pae0, ?_⟩
      rw [hm, hrs, hrs1, hres0]
      rfl
    · exact Option.noConfusion hcontra

/-- Claim C8: with no upload target (dry run) the pipeline makes zero
create-remote-chunk calls: every per-encoding step succeeds immediately,
still computing the dedup digest and already_in_place flag but returning an
empty chunk-identifier list with an unchanged state; and a successful whole
make_project_assets run leaves the remote chunk store unchanged, with every
returned encoding's chunk_ids empty. -/
theorem claim_dry_run_no_uploads :
    (∀ (env : Env) (ad : AssetDescriptor) (ca : List (String × AssetDetails))
      (content : Content) (content_encoding : String) (s : St),
      make_project_asset_encoding env none ad ca content content_encoding s
        = .ok (ProjectAssetEncoding.mk [] (env.hash content.data)
            (asset_already_in_place ca ad.key content.media_type
              content_encoding (env.hash content.data)), s))
    ∧ (∀ (env : Env) (ds : List AssetDescriptor)
      (ca : List (String × AssetDetails)) (s : St)
      (m : List (String × ProjectAsset)) (s' : St),
      make_project_assets env none ds ca s = .ok (m, s') →
      s'.chunks = s.chunks
      ∧ ∀ kpa ∈ m, ∀ kv ∈ (kpa : String × ProjectAsset).2.encodings,
          (kv : String × ProjectAssetEncoding).2.chunk_ids = []) := by
  constructor
  · intro env ad ca content content_encoding s
    cases hflag : asset_already_in_place ca ad.key content.media_type
        content_encoding (env.hash content.data) with
    | true => simp [make_project_asset_encoding, hflag]
    | false => simp [make_project_asset_encoding, hflag]
  · intro env ds ca s m s' h
    obtain ⟨pas, hlist, hm⟩ := make_project_assets_ok env none ds ca s m s' h
    obtain ⟨hchunks, hall⟩ :=
      make_project_asset_list_dry_run env ca ds s pas s' hlist
    refine ⟨hchunks, ?_⟩
    intro kpa hkpa kv hkv
    rw [hm] at hkpa
    have hfold : pas.foldl
        (fun hm pa => insertKV hm pa.asset_descriptor.key pa) []
          = (pas.map (fun pa => (pa.asset_descriptor.key, pa))).foldl
              (fun r kv => insertKV r kv.1 kv.2) [] := by
      rw [List.foldl_map]
    rw [hfold] at hkpa
    rcases mem_foldl_insertKV _ _ _ hkpa with h1 | h1
    · exact absurd h1 (List.not_mem_nil kpa)
    · obtain ⟨pa, hpa, hkpaeq⟩ := List.mem_map.mp h1
      have hsnd : kpa.2 = pa := by rw [← hkpaeq]
      exact hall pa hpa kv (hsnd ▸ hkv)

/-- Claim C9: for every successfully processed asset, the returned
ProjectAsset's encodings map contains the key "identity": the identity
encoding is always materialized and never dropped. -/
theorem claim_identity_always_present (env : Env)
    (tgt : Option ChunkUploadTarget) (ad : AssetDescriptor)
    (ca : List (String × AssetDetails)) (s : St) (pa : ProjectAsset) (s' : St)
    (h : make_project_asset env tgt ad ca s = .ok (pa, s')) :
    (lookupKV pa.encodings CONTENT_ENCODING_IDENTITY).isSome := by
  obtain ⟨fs, content, -, -, -, -, hencs, -⟩ :=
    make_project_asset_ok env tgt ad ca s pa s' h
  exact make_encodings_identity env tgt ad ca content _ pa.encodings s' hencs

/-- Claim C10: duplicate descriptor keys do not make make_project_assets
fail; on success the returned map's key set equals the set of descriptor
keys, the entry of a key is the ProjectAsset built from the last descriptor
with that key in input order, and the map never has more entries than the
input list. -/
theorem claim_duplicate_keys_last_wins (env : Env)
    (tgt : Option ChunkUploadTarget) (ds : List AssetDescriptor)
    (ca : List (String × AssetDetails)) (s : St)
    (m : List (String × ProjectAsset)) (s' : St)
    (h : make_project_assets env tgt ds ca s = .ok (m, s')) :
    (∀ k, (lookupKV m k).isSome ↔ k ∈ ds.map (fun d => d.key))
    ∧ (∀ k pa, lookupKV m k = some pa →
        ds.reverse.find? (fun d => d.key == k) = some pa.asset_descriptor)
    ∧ m.length ≤ ds.length := by
  obtain ⟨pas, hlist, hm⟩ := make_project_assets_ok env tgt ds ca s m s' h
  have hrel := make_project_asset_list_rel env tgt ca ds s pas s' hlist
  have hrelrev : List.Forall₂
      (fun d (pa : ProjectAsset) => pa.asset_descriptor = d)
        ds.reverse pas.reverse := List.forall₂_reverse_iff.mpr hrel
  have hlookup : ∀ k, lookupKV m k
      = pas.reverse.find? (fun pa => pa.asset_descriptor.key == k) := by
    intro k
    rw [hm, lookup_foldl_insert_assets]
  refine ⟨?_, ?_, ?_⟩
  · intro k
    rw [hlookup k, List.find?_isSome]
    have hiff := forall₂_exists_iff
      (fun d (pa : ProjectAsset) => pa.asset_descriptor = d)
      (fun d => d.key == k) (fun pa => pa.asset_descriptor.key == k)
      (fun d pa hr => by simp only [hr]) ds.reverse pas.reverse hrelrev
    rw [← hiff]
    constructor
    · rintro ⟨d, hd, hk⟩
      rw [List.mem_reverse] at hd
      exact List.mem_map.mpr ⟨d, hd, beq_iff_eq.mp hk⟩
    · intro hk
      obtain ⟨d, hd, hdk⟩ := List.mem_map.mp hk
      exact ⟨d, List.mem_reverse.mpr hd, by simp [hdk]⟩
  · intro k pa hpa
    rw [hlookup k] at hpa
    obtain ⟨d, hd, hda⟩ := forall₂_find?_rel
      (fun d (pa : ProjectAsset) => pa.asset_descriptor = d)
      (fun d => d.key == k) (fun pa => pa.asset_descriptor.key == k)
      (fun d pa hr => by simp only [hr]) ds.reverse pas.reverse hrelrev pa hpa
    rw [hd, hda]
  · rw [hm]
    have hfold : pas.foldl
        (fun hm pa => insertKV hm pa.asset_descriptor.key pa) []
          = (pas.map (fun pa => (pa.asset_descriptor.key, pa))).foldl
              (fun r kv => insertKV r kv.1 kv.2) [] := by
      rw [List.foldl_map]
    rw [hfold]
    have hle := length_foldl_insertKV_le
      (pas.map (fun pa => (pa.asset_descriptor.key, pa))) []
    rw [List.length_map] at hle
    rw [hrel.length_eq]
    simpa using hle

/-! ## Concrete sample data exercising the pipeline -/

/-- Sample environment: the digest of a byte list is the list itself, the
compressor keeps only the first byte, chunk creation never fails, and the
filesystem holds a three-byte text file, an empty text file and a two-byte
image. -/
def envW : Env :=
  Env.mk (fun b => b)
    (fun b => .ok (b.take 1))
    (fun _ => none)
    (fun p => if p = "a.txt" then .ok 3
      else if p = "b.txt" then .ok 0
      else if p = "img.png" then .ok 2
      else .error "no such file")
    (fun p => if p = "a.txt" then .ok (Content.mk [1, 2, 3] (Mime.mk "text" "plain"))
      else if p = "b.txt" then .ok (Content.mk [] (Mime.mk "text" "plain"))
      else if p = "img.png" then .ok (Content.mk [7, 8] (Mime.mk "image" "png"))
      else .error "no such file")

def st0 : St := St.mk [] []

def tgtW : Option ChunkUploadTarget := some (ChunkUploadTarget.mk 0)

def adA : AssetDescriptor := AssetDescriptor.mk "a.txt" "a" (AssetConfig.mk "")

def adB : AssetDescriptor := AssetDescriptor.mk "b.txt" "a" (AssetConfig.mk "")

def adImg : AssetDescriptor :=
  AssetDescriptor.mk "img.png" "img" (AssetConfig.mk "")

def adMissing : AssetDescriptor :=
  AssetDescriptor.mk "missing.bin" "m" (AssetConfig.mk "")

def contentA : Content := Content.mk [1, 2, 3] (Mime.mk "text" "plain")

def contentImg : Content := Content.mk [7, 8] (Mime.mk "image" "png")

/-- Sample remote snapshot: asset "a" is published as text/plain with an
identity encoding whose digest matches contentA. -/
def caA : List (String × AssetDetails) :=
  [("a", AssetDetails.mk "text/plain"
      [AssetEncodingDetails.mk "identity" (some [1, 2, 3])])]

/-! ## Witnesses: the claim theorems applied at the concrete sample data -/

theorem claim_dedup_already_in_place_iff_witness :
    ((ProjectAssetEncoding.mk [] [1, 2, 3] true).already_in_place = true ↔
      ∃ d, lookupKV caA adA.key = some d
        ∧ d.content_type = contentA.media_type.toString
        ∧ ∃ e ∈ d.encodings, e.content_encoding = "identity"
            ∧ e.sha256 = some (envW.hash contentA.data))
    ∧ (lookupKV caA adA.key = none →
        (ProjectAssetEncoding.mk [] [1, 2, 3] true).already_in_place = false) :=
  claim_dedup_already_in_place_iff envW none adA caA contentA "identity" st0
    (ProjectAssetEncoding.mk [] [1, 2, 3] true) st0 rfl
    (by
      intro d hd
      have hdd := Option.some.inj (show some (AssetDetails.mk "text/plain"
        [AssetEncodingDetails.mk "identity" (some [1, 2, 3])]) = some d from hd)
      rw [← hdd]
      decide)

theorem upload_chunk_reconstruction_witness :
    ([0] : List Nat).length = max 1 (contentA.data.length ⌈/⌉ MAX_CHUNK_SIZE)
    ∧ List.Chain' (· < ·) ([0] : List Nat)
    ∧ (St.mk [[1, 2, 3]] []).chunks.getD (([0] : List Nat).getD 0 0) []
        = (contentA.data.drop (0 * MAX_CHUNK_SIZE)).take MAX_CHUNK_SIZE
    ∧ (([0] : List Nat).map
        (fun id => (St.mk [[1, 2, 3]] []).chunks.getD id [])).flatten
          = contentA.data := by
  have H := upload_chunk_reconstruction envW 0 adA contentA [1, 2, 3]
    "identity" st0 [0] (St.mk [[1, 2, 3]] []) rfl
  exact ⟨H.1, H.2.1, H.2.2.1 0 (by decide), H.2.2.2.1⟩

theorem claim_encoding_chunk_invariant_witness :
    (ProjectAssetEncoding.mk [0] [7, 8] false).chunk_ids ≠ []
    ∧ (ProjectAssetEncoding.mk [0] [7, 8] false).chunk_ids.length
        = max 1 (contentImg.data.length ⌈/⌉ MAX_CHUNK_SIZE)
    ∧ List.Chain' (· < ·) (ProjectAssetEncoding.mk [0] [7, 8] false).chunk_ids :=
  (claim_encoding_chunk_invariant envW tgtW adImg caA contentImg "identity" st0
    (ProjectAssetEncoding.mk [0] [7, 8] false) (St.mk [[7, 8]] []) rfl).2
    rfl (ChunkUploadTarget.mk 0) rfl

theorem claim_compressed_variant_iff_shrinks_witness :
    (lookupKV [("identity", ProjectAssetEncoding.mk [] [1, 2, 3] true),
        ("gzip", ProjectAssetEncoding.mk [0] [1] false)] "gzip").isSome
      ↔ (Content.mk [1] (Mime.mk "text" "plain")).data.length
          < contentA.data.length :=
  claim_compressed_variant_iff_shrinks.2 envW tgtW adA caA contentA
    (Content.mk [1] (Mime.mk "text" "plain")) st0
    [("identity", ProjectAssetEncoding.mk [] [1, 2, 3] true),
     ("gzip", ProjectAssetEncoding.mk [0] [1] false)] (St.mk [[1]] [])
    rfl rfl rfl

theorem claim_file_permit_cost_witness :
    (St.mk [[1]] [1]).permitLog = st0.permitLog
      ++ [max 1 (min ((3 : Nat) ⌈/⌉ 1000000) MAX_COST_SINGLE_FILE_MB)]
    ∧ ((3 : Nat) = 0 → (St.mk [[1]] [1]).permitLog = st0.permitLog ++ [1]) :=
  claim_file_permit_cost envW tgtW adA caA st0
    (ProjectAsset.mk adA (Mime.mk "text" "plain")
      [("identity", ProjectAssetEncoding.mk [] [1, 2, 3] true),
       ("gzip", ProjectAssetEncoding.mk [0] [1] false)])
    (St.mk [[1]] [1]) 3 rfl rfl

theorem claim_first_error_fatal_witness :
    make_project_assets envW tgtW [adMissing, adA] caA st0
      = .error (.metadataFailed "missing.bin" "no such file") :=
  (claim_first_error_fatal envW tgtW caA [] adMissing [adA] st0 [] st0
    (.metadataFailed "missing.bin" "no such file") rfl rfl).1

theorem claim_compression_applicability_witness :
    ∃ pae, [("identity", ProjectAssetEncoding.mk [0] [7, 8] false)]
      = [(CONTENT_ENCODING_IDENTITY, pae)] :=
  claim_compression_applicability.2.2 envW tgtW adImg caA contentImg st0
    [("identity", ProjectAssetEncoding.mk [0] [7, 8] false)]
    (St.mk [[7, 8]] []) (by decide) rfl

theorem claim_dry_run_no_uploads_witness :
    (St.mk [] [1]).chunks = st0.chunks
    ∧ (ProjectAssetEncoding.mk [] [1] false).chunk_ids = [] := by
  have H := claim_dry_run_no_uploads.2 envW [adA] caA st0
    [("a", ProjectAsset.mk adA (Mime.mk "text" "plain")
      [("identity", ProjectAssetEncoding.mk [] [1, 2, 3] true),
       ("gzip", ProjectAssetEncoding.mk [] [1] false)])] (St.mk [] [1]) rfl
  refine ⟨H.1, ?_⟩
  exact H.2 ("a", ProjectAsset.mk adA (Mime.mk "text" "plain")
      [("identity", ProjectAssetEncoding.mk [] [1, 2, 3] true),
       ("gzip", ProjectAssetEncoding.mk [] [1] false)]) (by decide)
    ("gzip", ProjectAssetEncoding.mk [] [1] false) (by decide)

theorem claim_identity_always_present_witness :
    (lookupKV [("identity", ProjectAssetEncoding.mk [] [1, 2, 3] true),
        ("gzip", ProjectAssetEncoding.mk [0] [1] false)]
      CONTENT_ENCODING_IDENTITY).isSome :=
  claim_identity_always_present envW tgtW adA caA st0
    (ProjectAsset.mk adA (Mime.mk "text" "plain")
      [("identity", ProjectAssetEncoding.mk [] [1, 2, 3] true),
       ("gzip", ProjectAssetEncoding.mk [0] [1] false)]) (St.mk [[1]] [1]) rfl

theorem claim_duplicate_keys_last_wins_witness :
    ((lookupKV [("a", ProjectAsset.mk adB (Mime.mk "text" "plain")
        [("identity", ProjectAssetEncoding.mk [] [] false)])] "a").isSome
      ↔ "a" ∈ [adA, adB].map (fun d => d.key))
    ∧ [adA, adB].reverse.find? (fun d => d.key == "a")
        = some (ProjectAsset.mk adB (Mime.mk "text" "plain")
            [("identity", ProjectAssetEncoding.mk [] [] false)]).asset_descriptor
    ∧ ([("a", ProjectAsset.mk adB (Mime.mk "text" "plain")
        [("identity", ProjectAssetEncoding.mk [] [] false)])]).length
          ≤ [adA, adB].length := by
  have H := claim_duplicate_keys_last_wins envW none [adA, adB] caA st0
    [("a", ProjectAsset.mk adB (Mime.mk "text" "plain")
      [("identity", ProjectAssetEncoding.mk [] [] false)])] (St.mk [] [1, 1]) rfl
  exact ⟨H.1 "a", H.2.1 "a" _ rfl, H.2.2⟩
